import Mathlib

/-!
Verification of the hybrid PDF text-extraction engine (`pdf_processor.py`)
and the page-range partitioner (`pdf_splitter.py`).

The pure text algorithms (`_fix_japanese_spacing`, `_clean_text`,
`_is_text_rich_page`) are embedded directly.  Python's `re.sub` calls are
embedded as character-list scanners that reproduce the leftmost,
non-overlapping, greedy-with-backtracking semantics of the four concrete
patterns the source uses.  External collaborators (pdfplumber parsing,
pdf2image rasterization, the Tesseract engine, SHA-256 hashing, PyPDF2
serialization) are modelled as explicit parameters, exactly at the interface
boundary the spec assigns them.
-/

/-- Whitespace set of Python's `str.isspace`, which is also the character set
matched by the regex class `\s` for `str` patterns in CPython. -/
def isWsChar (c : Char) : Bool :=
  let v := c.toNat
  v == 0x20 || (0x09 ≤ v && v ≤ 0x0D) || (0x1C ≤ v && v ≤ 0x1F) ||
  v == 0x85 || v == 0xA0 || v == 0x1680 || (0x2000 ≤ v && v ≤ 0x200A) ||
  v == 0x2028 || v == 0x2029 || v == 0x202F || v == 0x205F || v == 0x3000

/-- Hiragana block used by the source: `[぀-ゟ]`. -/
def isHiragana (c : Char) : Bool := 0x3040 ≤ c.toNat && c.toNat ≤ 0x309F

/-- Katakana block used by the source: `[゠-ヿ]`. -/
def isKatakana (c : Char) : Bool := 0x30A0 ≤ c.toNat && c.toNat ≤ 0x30FF

/-- Kanji block used by the source: `[一-龯]`. -/
def isKanji (c : Char) : Bool := 0x4E00 ≤ c.toNat && c.toNat ≤ 0x9FAF

/-- Japanese punctuation block used by the source: `[　-〿]`. -/
def isJpunct (c : Char) : Bool := 0x3000 ≤ c.toNat && c.toNat ≤ 0x303F

/-- The `japanese_char` alternation of `_fix_japanese_spacing`. -/
def isJchar (c : Char) : Bool := isHiragana c || isKatakana c || isKanji c || isJpunct c

/-- Closing punctuation class `[。、！？）」』】]` of the second substitution. -/
def isCloser (c : Char) : Bool :=
  c == '。' || c == '、' || c == '！' || c == '？' ||
  c == '）' || c == '」' || c == '』' || c == '】'

/-- Opening punctuation class `[（「『【]` of the third substitution. -/
def isOpener (c : Char) : Bool := c == '（' || c == '「' || c == '『' || c == '【'

/-- Largest index `k ≥ 1` of a Japanese character inside a whitespace run,
starting the search at index `i`.  Used to reproduce the greedy backtracking of
`\s+` when the character after the run is not Japanese: the only characters
that are both whitespace and in the Japanese classes are `U+3000`, so the
regex engine can still end the match on the last such character of the run. -/
def lastJIdxAux : List Char → Nat → Option Nat
  | [], _ => none
  | c :: rest, i =>
    match lastJIdxAux rest (i + 1) with
    | some k => some k
    | none => if isJchar c then some i else none

/-- Largest index `k` with `1 ≤ k < ws.length` such that `ws[k]` is Japanese. -/
def lastJIdx (ws : List Char) : Option Nat := lastJIdxAux (ws.drop 1) 1

/-- Emit a pending Japanese character `j` followed by a pending whitespace run
`ws` once the run can no longer be extended: either the backtracked match
`(J)\s+(J)` fires inside the run (replacement `\1\2`, i.e. `j` twice), or no
match exists and everything is emitted unchanged. -/
def subJJFlush (j : Char) (ws : List Char) : List Char :=
  match lastJIdx ws with
  | some k => j :: j :: ws.drop (k + 1)
  | none => j :: ws

/-- Scanner for the first substitution of `_fix_japanese_spacing`:
`re.sub("((J))\\s+((J))", "\\1\\2", text)`.  The state holds a possible
pending Japanese character together with the whitespace run read after it.
Because the pattern double-wraps `japanese_char`, groups 1 and 2 are both the
first matched character, so a successful match is replaced by the first
character twice and the second character is dropped. -/
def subJJAux : Option (Char × List Char) → List Char → List Char
  | none, [] => []
  | some (j, ws), [] => subJJFlush j ws
  | none, c :: rest =>
    if isJchar c then subJJAux (some (c, [])) rest
    else c :: subJJAux none rest
  | some (j, ws), c :: rest =>
    if isWsChar c then subJJAux (some (j, ws ++ [c])) rest
    else if isJchar c then
      if ws.isEmpty then j :: subJJAux (some (c, [])) rest
      else j :: j :: subJJAux none rest
    else subJJFlush j ws ++ c :: subJJAux none rest

/-- First substitution of `_fix_japanese_spacing`. -/
def subJJ (l : List Char) : List Char := subJJAux none l

/-- Scanner for `re.sub("\\s+([。、！？）」』】])", "\\1", text)`: a whitespace
run directly followed by a closing punctuation mark is replaced by the mark.
The accumulator holds the pending whitespace run. -/
def subCloseAux : List Char → List Char → List Char
  | pend, [] => pend
  | pend, c :: rest =>
    if isWsChar c then subCloseAux (pend ++ [c]) rest
    else if isCloser c && !pend.isEmpty then c :: subCloseAux [] rest
    else pend ++ c :: subCloseAux [] rest

/-- Second substitution of `_fix_japanese_spacing`. -/
def subClose (l : List Char) : List Char := subCloseAux [] l

/-- Scanner for `re.sub("([（「『【])\\s+", "\\1", text)`: whitespace directly
after an opening punctuation mark is removed.  The flag records whether the
scanner sits right after an opening mark (or inside its whitespace run). -/
def subOpenAux : Bool → List Char → List Char
  | _, [] => []
  | skip, c :: rest =>
    if skip && isWsChar c then subOpenAux true rest
    else if isOpener c then c :: subOpenAux true rest
    else c :: subOpenAux false rest

/-- Third substitution of `_fix_japanese_spacing`. -/
def subOpen (l : List Char) : List Char := subOpenAux false l

/-- Scanner for `re.sub("\\s+", " ", text)`: every maximal whitespace run is
replaced by a single ASCII space.  The flag records whether the previous
character was whitespace. -/
def subWsAux : Bool → List Char → List Char
  | _, [] => []
  | inWs, c :: rest =>
    if isWsChar c then
      if inWs then subWsAux true rest else ' ' :: subWsAux true rest
    else c :: subWsAux false rest

/-- Fourth substitution of `_fix_japanese_spacing`. -/
def subWs (l : List Char) : List Char := subWsAux false l

/-- Python's `str.strip()`: remove leading and trailing whitespace. -/
def stripWs (l : List Char) : List Char :=
  ((l.dropWhile isWsChar).reverse.dropWhile isWsChar).reverse

/-- `PDFProcessor._fix_japanese_spacing`: the four substitutions in source
order followed by `.strip()`; the empty string is returned unchanged. -/
def fix_japanese_spacing (s : String) : String :=
  if s = "" then s
  else ⟨stripWs (subWs (subOpen (subClose (subJJ s.data))))⟩

/-- `str.split("\n")` on a character list. -/
def splitLines : List Char → List (List Char)
  | [] => [[]]
  | c :: rest =>
    if c = '\n' then [] :: splitLines rest
    else
      match splitLines rest with
      | [] => [[c]]
      | l :: ls => (c :: l) :: ls

/-- `PDFProcessor._clean_text`: split into lines, strip each line, drop lines
that are empty after stripping, and re-join with newlines. -/
def clean_text (s : String) : String :=
  if s = "" then ""
  else ⟨List.intercalate ['\n'] (((splitLines s.data).map stripWs).filter (fun l => !l.isEmpty))⟩

/-- The normalization applied to every recognized page inside
`_process_single_page_ocr` (lines 199 to 200 of the source): the
Japanese-spacing fixup followed by line cleaning. -/
def normalize_text (s : String) : String := clean_text (fix_japanese_spacing s)

/-- Character count of `re.sub("\\s+", "", page_text)`: the number of
non-whitespace characters of the page text. -/
def meaningful_chars (s : String) : Nat := (s.data.filter (fun c => !isWsChar c)).length

/-- `PDFProcessor._is_text_rich_page` with an explicit threshold (the source
takes it from the `min_chars` override or `self.min_chars`). -/
def is_text_rich_page (threshold : Nat) (page_text : String) : Bool :=
  if page_text = "" then false
  else threshold ≤ meaningful_chars page_text


/-- Outcome of `pdfplumber`'s per-page `page.extract_text()` call, the external
document-format library: it can return text, return `None`, or raise. -/
inductive PageRead where
  | ok (text : Option String)
  | failed (msg : String)
deriving DecidableEq, Repr

/-- Provenance tag of a page in `final_results` of `extract_text`. -/
inductive PageMethod where
  | pdf
  | ocrPending
  | pdfOnly
  | ocr
deriving DecidableEq, Repr

/-- String form of a provenance tag as interpolated into the output text. -/
def method_str : PageMethod → String
  | .pdf => "PDF"
  | .ocrPending => "OCR_PENDING"
  | .pdfOnly => "PDF_ONLY"
  | .ocr => "OCR"

/-- Metadata block of the extraction response. -/
structure Metadata where
  total_pages : Nat
  pdf_pages : Nat
  ocr_pages : Nat
deriving DecidableEq, Repr

/-- Response dictionary of `PDFProcessor.extract_text`. -/
structure ExtractResponse where
  file_hash : String
  file_text : String
  error : Option String
  metadata : Metadata
deriving DecidableEq, Repr

/-- `PDFProcessor._extract_text_from_pdf_memory` given the per-page outcomes
of the external pdfplumber library: pages are numbered from 1; a page whose
embedded-text extraction raised contributes `(page_num, "", false)`; otherwise
the text is cleaned (with `None` and `""` both treated as empty) and
classified with `_is_text_rich_page`. -/
def extract_text_from_pdf_memory (min_chars : Nat) (reads : List PageRead) :
    List (Nat × String × Bool) :=
  reads.enum.map fun p =>
    match p.2 with
    | .failed _ => (p.1 + 1, "", false)
    | .ok t =>
      let cleaned :=
        match t with
        | none => ""
        | some s => if s = "" then "" else clean_text s
      (p.1 + 1, cleaned, is_text_rich_page min_chars cleaned)

/-- `PDFProcessor._process_single_page_ocr` with the external Tesseract engine
call modelled as an `Except`: a raised exception (rendered as its
`TypeName - message` string) is caught and converted into the page's inline
error marker; a successful recognition is post-processed with the
Japanese-spacing fixup and line cleaning.  The grayscale conversion and
resizing act only on the image and are absorbed into the engine function. -/
def process_single_page_ocr (engineResult : Except String String) (page_num : Nat) :
    Nat × String :=
  match engineResult with
  | .ok t => (page_num, clean_text (fix_japanese_spacing t))
  | .error e => (page_num, "[OCR Error: " ++ e ++ "]")

/-- `PDFProcessor._extract_text_with_ocr_memory`: the external rasterizer is
modelled as yielding one image per page of the contiguous range from the
smallest to the largest requested page (exactly `convert_from_bytes` with
`first_page`/`last_page`); the images are attributed back to page numbers and
filtered to the requested ones, and each surviving page is recognized by
`_process_single_page_ocr`.  The result dictionary is represented as an
association list; the worker pool collects one entry per processed page and
the dictionary is only ever read through keyed lookup, so the completion
order does not affect it. -/
def extract_text_with_ocr_memory (page_numbers : List Nat)
    (engine : Nat → Except String String) : List (Nat × String) :=
  match page_numbers with
  | [] => []
  | p :: ps =>
    let minP := ps.foldl Nat.min p
    let maxP := ps.foldl Nat.max p
    let page_images :=
      ((List.range (maxP + 1 - minP)).map (· + minP)).filter (fun q => q ∈ page_numbers)
    page_images.map (fun q => process_single_page_ocr (engine q) q)

/-- Step 2 of `extract_text`: walk the extracted pages in order and produce
`final_results` (page, text, provenance tag), the list `ocr_pages` of page
numbers needing recognition, and the running `pdf_pages` metadata counter. -/
def classify_pages (use_ocr : Bool) :
    List (Nat × String × Bool) → List (Nat × String × PageMethod) × List Nat × Nat
  | [] => ([], [], 0)
  | (n, t, rich) :: rest =>
    let acc := classify_pages use_ocr rest
    if rich then ((n, t, .pdf) :: acc.1, acc.2.1, acc.2.2 + 1)
    else if use_ocr then ((n, t, .ocrPending) :: acc.1, n :: acc.2.1, acc.2.2)
    else ((n, (if t = "" then "[No text detected]" else t), .pdfOnly) :: acc.1, acc.2.1, acc.2.2 + 1)

/-- Step 3 of `extract_text`: replace every `OCR_PENDING` entry by the OCR
dictionary entry for its page (keeping the embedded text when the key is
missing, exactly `ocr_results.get(page_num, text)`), retag it `OCR`, and count
the retagged pages into the `ocr_pages` metadata counter. -/
def apply_ocr_results (ocr : List (Nat × String)) :
    List (Nat × String × PageMethod) → List (Nat × String × PageMethod) × Nat
  | [] => ([], 0)
  | (n, t, m) :: rest =>
    let acc := apply_ocr_results ocr rest
    match m with
    | .ocrPending => ((n, ((ocr.lookup n).getD t), .ocr) :: acc.1, acc.2 + 1)
    | _ => ((n, t, m) :: acc.1, acc.2)

/-- One page block of the concatenated output text. -/
def page_part (n : Nat) (t : String) (m : PageMethod) : String :=
  "Page " ++ toString n ++ " [" ++ method_str m ++ "]:\n" ++ t ++ "\n"

/-- Python's `text.startswith("[")`: the first character is `[`. -/
def starts_with_bracket (s : String) : Bool :=
  match s.data with
  | [] => false
  | c :: _ => c == '['

/-- Step 4 of `extract_text`: skip pages whose text is empty or starts with
`[` (the error-marker convention) and join the remaining page blocks. -/
def combine_text (fr : List (Nat × String × PageMethod)) : String :=
  String.intercalate "\n"
    ((fr.filter (fun x => x.2.1 ≠ "" && !(starts_with_bracket x.2.1))).map
      (fun x => page_part x.1 x.2.1 x.2.2))

/-- `PDFProcessor.extract_text`, the top-level hybrid extraction.  The
externals appear as parameters: `file_hash` is the SHA-256 fingerprint of the
input bytes, `parse` is the outcome of opening the document with pdfplumber
(an exception message, or the per-page read outcomes), and `engine` is the
per-page recognition engine.  Every internal step is total, so the function
always returns a response; the two `raise` sites inside the `try` block land
in the `except` clause, which fills the `error` slot. -/
def extract_text (file_hash : String) (parse : Except String (List PageRead))
    (engine : Nat → Except String String) (use_ocr : Bool) (min_chars : Nat) :
    ExtractResponse :=
  match parse with
  | .error e =>
    ⟨file_hash, "",
      some ("Extraction Failed: Exception - Error opening PDF with pdfplumber: " ++ e),
      ⟨0, 0, 0⟩⟩
  | .ok reads =>
    let pdf_pages := extract_text_from_pdf_memory min_chars reads
    if pdf_pages.isEmpty then
      ⟨file_hash, "",
        some "Extraction Failed: ValueError - Could not extract any page data from PDF",
        ⟨0, 0, 0⟩⟩
    else
      let step2 := classify_pages use_ocr pdf_pages
      let step3 :=
        if !step2.2.1.isEmpty && use_ocr then
          apply_ocr_results (extract_text_with_ocr_memory step2.2.1 engine) step2.1
        else (step2.1, 0)
      let text0 := combine_text step3.1
      let file_text :=
        if (⟨stripWs text0.data⟩ : String) = "" then
          "[No text could be extracted from this PDF]"
        else text0
      ⟨file_hash, file_text, none, ⟨pdf_pages.length, step2.2.2, step3.2⟩⟩

/-- One split file of `PDFSplitter.split_pdf`.  `first_page` and `last_page`
are the 1-indexed inclusive bounds of the pages copied into the split
(`range(start_page, end_page)` of the 0-indexed source loop); the serialized
bytes live in the external PyPDF2 writer and are not modelled. -/
structure SplitFile where
  filename : String
  pages : String
  first_page : Nat
  last_page : Nat
  page_count : Nat
deriving DecidableEq, Repr

/-- Response dictionary of `PDFSplitter.split_pdf`. -/
structure SplitResponse where
  success : Bool
  total_pages : Nat
  total_splits : Nat
  files : List SplitFile
  error : Option String
deriving DecidableEq, Repr

/-- `PDFSplitter._get_original_filename`: drop a trailing `.pdf` extension.
`filename.endswith(".pdf")` holds exactly when the last four characters are
`.pdf`, phrased here on the reversed character list. -/
def get_original_filename (filename : String) : String :=
  if filename.data.reverse.take 4 = ['f', 'd', 'p', '.'] then
    ⟨(filename.data.reverse.drop 4).reverse⟩
  else filename

/-- Placeholder split file used only as the default of positional list reads
in theorem statements. -/
def dummy_file : SplitFile := ⟨"", "", 0, 0, 0⟩

/-- `PDFSplitter.split_pdf` with the external PyPDF2 reader modelled by the
validation outcome and the page count: validation failure, a chunk size below
one, and a zero page count each raise a `ValueError` that the handler turns
into the error slot; otherwise the chunk list is produced exactly as the
source loop does. -/
def split_pdf (valid : Bool) (total_pages : Nat) (pages_per_split : Nat)
    (original_filename : String) : SplitResponse :=
  if !valid then
    ⟨false, 0, 0, [], some "Validation Error: Invalid PDF data"⟩
  else if pages_per_split < 1 then
    ⟨false, 0, 0, [], some "Validation Error: pages_per_split must be at least 1"⟩
  else if total_pages = 0 then
    ⟨false, 0, 0, [], some "Validation Error: PDF has no pages"⟩
  else
    let base := get_original_filename original_filename
    let num_splits := (total_pages + pages_per_split - 1) / pages_per_split
    let files := (List.range num_splits).map fun i =>
      let start_page := i * pages_per_split
      let end_page := min (start_page + pages_per_split) total_pages
      { filename := base ++ "_" ++ toString (i + 1) ++ ".pdf"
        pages := toString (start_page + 1) ++ "-" ++ toString end_page
        first_page := start_page + 1
        last_page := end_page
        page_count := end_page - start_page : SplitFile }
    ⟨true, total_pages, num_splits, files, none⟩

/-- The 1-indexed page numbers covered by a split file. -/
def pages_of (f : SplitFile) : List Nat := List.range' f.first_page f.page_count


/-- The chunk constructor of `split_pdf` on the success path. -/
def split_chunk (t p : Nat) (name : String) (i : Nat) : SplitFile :=
  { filename := get_original_filename name ++ "_" ++ toString (i + 1) ++ ".pdf"
    pages := toString (i * p + 1) ++ "-" ++ toString (min (i * p + p) t)
    first_page := i * p + 1
    last_page := min (i * p + p) t
    page_count := min (i * p + p) t - i * p }

/-- The page text a recognition engine outcome turns into: either the
normalized recognized text or the inline error marker. -/
def ocr_page_text (engine : Nat → Except String String) (q : Nat) : String :=
  match engine q with
  | .ok t => clean_text (fix_japanese_spacing t)
  | .error e => "[OCR Error: " ++ e ++ "]"

/-- The rasterized-and-filtered page list of `_extract_text_with_ocr_memory`. -/
def ocr_page_images (page_numbers : List Nat) : List Nat :=
  match page_numbers with
  | [] => []
  | p :: ps =>
    let minP := ps.foldl Nat.min p
    let maxP := ps.foldl Nat.max p
    ((List.range (maxP + 1 - minP)).map (· + minP)).filter (fun q => q ∈ page_numbers)

/-- The simulated engine of the C1 witness: page 2 raises, other pages
recognize. -/
def faulty_engine : Nat → Except String String := fun q =>
  if q = 2 then .error "RuntimeError - boom" else .ok "hello"

/-- A `final_results` entry still awaiting recognition. -/
def is_pending (x : Nat × String × PageMethod) : Bool :=
  match x.2.2 with
  | .ocrPending => true
  | _ => false

/-- Two adjacent characters are not both whitespace. -/
def NoWsPair (a b : Char) : Prop := ¬(isWsChar a = true ∧ isWsChar b = true)

/-- A whitespace-collapsed character list: every whitespace character is a
single ASCII space and no two adjacent characters are both whitespace. -/
def Collapsed (l : List Char) : Prop :=
  (∀ c ∈ l, isWsChar c = true → c = ' ') ∧ l.Chain' NoWsPair

/-- C7: for every byte input whose parse fails (e.g. a truncated or empty
buffer), `extract_text` returns a response whose document-level `error` slot
carries the extraction failure, whose `file_text` contains no per-page text or
per-page error markers, and whose metadata counters are untouched; a
successfully opened document with zero pages likewise yields only the
document-level `ValueError`, never a partial report. -/
theorem extract_malformed_document_error (h e : String)
    (engine : Nat → Except String String) (use_ocr : Bool) (min_chars : Nat) :
    (extract_text h (.error e) engine use_ocr min_chars).error =
      some ("Extraction Failed: Exception - Error opening PDF with pdfplumber: " ++ e) ∧
    (extract_text h (.error e) engine use_ocr min_chars).file_text = "" ∧
    (extract_text h (.error e) engine use_ocr min_chars).metadata = ⟨0, 0, 0⟩ ∧
    (extract_text h (.ok []) engine use_ocr min_chars).error =
      some "Extraction Failed: ValueError - Could not extract any page data from PDF" ∧
    (extract_text h (.ok []) engine use_ocr min_chars).file_text = "" :=
  ⟨rfl, rfl, rfl, rfl, rfl⟩

/-- C3 counterexample: with threshold 0 the empty page text contains at least
0 non-whitespace characters, yet `_is_text_rich_page` classifies the page as
needing recognition, so the threshold rule does not hold for threshold 0. -/
theorem is_text_rich_page_zero_threshold_cex :
    meaningful_chars "" ≥ 0 ∧ is_text_rich_page 0 "" = false := by
  exact ⟨Nat.zero_le _, by decide⟩

/-- C3 (amended): classification is total and two-valued, never fails on empty
text, and is `TextRich` exactly when the text is nonempty and its
non-whitespace character count reaches the threshold; hence the threshold rule
`count ≥ threshold → TextRich` holds for every threshold at least 1, while
empty (or missing) text is always `NeedsRecognition`, including at
threshold 0. -/
theorem is_text_rich_page_iff (threshold : Nat) (s : String) :
    is_text_rich_page threshold s = true ↔ s ≠ "" ∧ threshold ≤ meaningful_chars s := by
  unfold is_text_rich_page
  by_cases h : s = "" <;> simp [h]

/-- C8 counterexample: the partitioner's filenames carry the `.pdf` extension,
so they are `report_1.pdf`, `report_2.pdf`, `report_3.pdf` and not the bare
`report_1`, `report_2`, `report_3` the claim states. -/
theorem split_pdf_report_filenames_cex :
    (split_pdf true 10 4 "report").files.map (fun f => f.filename) =
      ["report_1.pdf", "report_2.pdf", "report_3.pdf"] ∧
    (split_pdf true 10 4 "report").files.map (fun f => f.filename) ≠
      ["report_1", "report_2", "report_3"] := by
  constructor <;> decide

/-- C8 (amended): partitioning a 10-page document with 4 pages per chunk and
base name `report` yields exactly 3 partitions with 1-indexed page ranges
1 to 4, 5 to 8 and 9 to 10, and filenames `report_1.pdf`, `report_2.pdf`,
`report_3.pdf` (stems `report_1`, `report_2`, `report_3`). -/
theorem split_pdf_report_scenario :
    (split_pdf true 10 4 "report").total_splits = 3 ∧
    (split_pdf true 10 4 "report").files.map
        (fun f => (f.filename, f.first_page, f.last_page, f.pages)) =
      [("report_1.pdf", 1, 4, "1-4"), ("report_2.pdf", 5, 8, "5-8"),
        ("report_3.pdf", 9, 10, "9-10")] := by
  constructor <;> decide

/-- Ceiling-division facts for the chunk count `(t + p - 1) / p` of
`split_pdf`: it is at least 1, covers `t`, and exceeds `t` by less than one
chunk. -/
theorem ceil_div_facts (t p : Nat) (ht : 1 ≤ t) (hp : 1 ≤ p) :
    t ≤ ((t + p - 1) / p) * p ∧ ((t + p - 1) / p) * p ≤ t + p - 1 ∧
      1 ≤ (t + p - 1) / p := by
  have h1 : ((t + p - 1) / p) * p ≤ t + p - 1 := Nat.div_mul_le_self _ _
  have h2 : t ≤ ((t + p - 1) / p) * p := by
    by_contra hcon
    push_neg at hcon
    have hmul : ((t + p - 1) / p + 1) * p ≤ t + p - 1 := by
      have hsm : ((t + p - 1) / p + 1) * p = ((t + p - 1) / p) * p + p :=
        Nat.succ_mul _ _
      omega
    have := (Nat.le_div_iff_mul_le (by omega : 0 < p)).mpr hmul
    omega
  have h3 : 1 ≤ (t + p - 1) / p :=
    (Nat.le_div_iff_mul_le (by omega : 0 < p)).mpr (by omega)
  exact ⟨h2, h1, h3⟩

/-- Every chunk index below the chunk count of `split_pdf` starts strictly
inside the document. -/
theorem chunk_start_lt (t p k : Nat) (hp : 1 ≤ p) (hk : k < (t + p - 1) / p) :
    k * p < t := by
  by_contra hcon
  push_neg at hcon
  have h1 : (t + p - 1) / p ≤ (k * p + p - 1) / p := Nat.div_le_div_right (by omega)
  have h2 : (k * p + p - 1) / p = k := by
    apply Nat.div_eq_of_lt_le
    · omega
    · have : (k + 1) * p = k * p + p := Nat.succ_mul _ _
      omega
  omega

/-- The concatenation of the first `k` chunk page-ranges of `split_pdf` is the
contiguous 1-indexed range up to `min (k * p) t`. -/
theorem split_cover_aux (t p : Nat) (hp : 1 ≤ p) :
    ∀ k, (∀ i, i < k → i * p < t) →
    ((List.range k).map (fun i => List.range' (i * p + 1) (min (i * p + p) t - i * p))).flatten
      = List.range' 1 (min (k * p) t) := by
  intro k
  induction k with
  | zero => intro _; simp
  | succ k ih =>
    intro hk
    rw [List.range_succ, List.map_append, List.flatten_append,
      ih (fun i hi => hk i (by omega))]
    simp only [List.map_cons, List.map_nil, List.flatten_cons, List.flatten_nil,
      List.append_nil]
    have h1 : k * p < t := hk k (by omega)
    have hmin : min (k * p) t = k * p := by omega
    rw [hmin]
    have happ := List.range'_append 1 (k * p) (min (k * p + p) t - k * p) 1
    have hs : (k + 1) * p = k * p + p := Nat.succ_mul _ _
    have hm2 : min (k * p + p) t - k * p + k * p = min ((k + 1) * p) t := by omega
    rw [Nat.one_mul] at happ
    rw [show 1 + k * p = k * p + 1 by omega] at happ
    rw [happ, hm2]

/-- Elements of a mapped range read positionally. -/
theorem getD_map_range {α : Type} (f : Nat → α) (n i : Nat) (d : α) (hi : i < n) :
    ((List.range n).map f).getD i d = f i := by
  induction n generalizing i with
  | zero => omega
  | succ n ih =>
    rw [List.range_succ, List.map_append]
    rcases Nat.lt_or_ge i n with h | h
    · rw [List.getD_append _ _ _ _ (by simpa using h)]
      exact ih i h
    · have hin : i = n := by omega
      subst hin
      rw [List.getD_eq_getElem?_getD]
      rw [List.getElem?_append_right (by simp)]
      simp

/-- Unfolding of `split_pdf` on valid input: the success path produces one
file per chunk index. -/
theorem split_pdf_pos (t p : Nat) (name : String) (ht : 1 ≤ t) (hp : 1 ≤ p) :
    split_pdf true t p name =
      ⟨true, t, (t + p - 1) / p,
        (List.range ((t + p - 1) / p)).map (fun i =>
          { filename := get_original_filename name ++ "_" ++ toString (i + 1) ++ ".pdf"
            pages := toString (i * p + 1) ++ "-" ++ toString (min (i * p + p) t)
            first_page := i * p + 1
            last_page := min (i * p + p) t
            page_count := min (i * p + p) t - i * p : SplitFile }), none⟩ := by
  unfold split_pdf
  rw [if_neg (by simp), if_neg (by omega), if_neg (by omega)]

/-- The file list of `split_pdf` on valid input is the mapped chunk list. -/
theorem split_pdf_files (t p : Nat) (name : String) (ht : 1 ≤ t) (hp : 1 ≤ p) :
    (split_pdf true t p name).files =
      (List.range ((t + p - 1) / p)).map (split_chunk t p name) := by
  rw [split_pdf_pos t p name ht hp]; rfl

/-- C6: for every `total_pages ≥ 1` and `pages_per_chunk ≥ 1`, `split_pdf`
produces exactly `ceil(total_pages / pages_per_chunk)` chunks (the value
`(t + p - 1) / p`, characterized below as the least chunk count whose pages
cover `t`); their 1-indexed page ranges, read in order, concatenate to exactly
`1, 2, ..., total_pages` — contiguous, non-overlapping, every page covered
exactly once; chunk `i` starts at page `i * p + 1`, immediately after chunk
`i - 1` ends; every chunk before the last has exactly `p` pages, and the last
chunk holds the nonzero remainder `t - (n - 1) * p ≤ p`. -/
theorem split_pdf_partition (t p : Nat) (name : String) (ht : 1 ≤ t) (hp : 1 ≤ p) :
    (split_pdf true t p name).success = true ∧
    (split_pdf true t p name).total_splits = (t + p - 1) / p ∧
    t ≤ (split_pdf true t p name).total_splits * p ∧
    ((split_pdf true t p name).total_splits - 1) * p < t ∧
    (split_pdf true t p name).files.length = (split_pdf true t p name).total_splits ∧
    (((split_pdf true t p name).files.map pages_of).flatten = List.range' 1 t) ∧
    ((split_pdf true t p name).files.map (fun f => f.first_page) =
      (List.range ((t + p - 1) / p)).map (fun i => i * p + 1)) ∧
    (((split_pdf true t p name).files.dropLast).map (fun f => f.page_count) =
      List.replicate ((t + p - 1) / p - 1) p) ∧
    ((split_pdf true t p name).files.getD ((t + p - 1) / p - 1) dummy_file).page_count =
      t - ((t + p - 1) / p - 1) * p ∧
    1 ≤ ((split_pdf true t p name).files.getD ((t + p - 1) / p - 1) dummy_file).page_count ∧
    ((split_pdf true t p name).files.getD ((t + p - 1) / p - 1) dummy_file).page_count ≤ p := by
  obtain ⟨hcov, hle, hone⟩ := ceil_div_facts t p ht hp
  set n := (t + p - 1) / p with hn
  have hlt : ∀ k, k < n → k * p < t := fun k hk => chunk_start_lt t p k hp hk
  have hlast : (n - 1) * p < t := hlt (n - 1) (by omega)
  have hnp : n * p = (n - 1) * p + p := by
    have : (n - 1) + 1 = n := by omega
    calc n * p = ((n - 1) + 1) * p := by rw [this]
      _ = (n - 1) * p + p := Nat.succ_mul _ _
  have hfiles := split_pdf_files t p name ht hp
  have hsucc : (split_pdf true t p name).success = true := by
    rw [split_pdf_pos t p name ht hp]
  have htot : (split_pdf true t p name).total_splits = n := by
    rw [split_pdf_pos t p name ht hp]
  have hgetD : (split_pdf true t p name).files.getD (n - 1) dummy_file =
      split_chunk t p name (n - 1) := by
    rw [hfiles]; exact getD_map_range _ _ _ _ (by omega)
  have hcount : (split_chunk t p name (n - 1)).page_count = t - (n - 1) * p := by
    show min ((n - 1) * p + p) t - (n - 1) * p = t - (n - 1) * p
    omega
  refine ⟨hsucc, htot, ?_, ?_, ?_, ?_, ?_, ?_, ?_, ?_, ?_⟩
  · rw [htot]; exact hcov
  · rw [htot]; exact hlast
  · rw [hfiles, htot]; simp
  · rw [hfiles, List.map_map]
    have hcomp : (pages_of ∘ split_chunk t p name) =
        (fun i => List.range' (i * p + 1) (min (i * p + p) t - i * p)) := rfl
    rw [hcomp, split_cover_aux t p hp n hlt]
    have : min (n * p) t = t := by omega
    rw [this]
  · rw [hfiles, List.map_map]; rfl
  · rw [hfiles]
    have hsplit : List.range n = List.range (n - 1) ++ [n - 1] := by
      conv_lhs => rw [show n = (n - 1) + 1 by omega, List.range_succ]
    rw [hsplit, List.map_append]
    simp only [List.map_cons, List.map_nil]
    rw [List.dropLast_concat, List.map_map, List.eq_replicate_iff]
    refine ⟨by simp, ?_⟩
    intro b hb
    rw [List.mem_map] at hb
    obtain ⟨i, hi, hb⟩ := hb
    rw [List.mem_range] at hi
    have hip : i + 1 < n := by omega
    have : (i + 1) * p < t := hlt (i + 1) hip
    have hsm : (i + 1) * p = i * p + p := Nat.succ_mul _ _
    have : min (i * p + p) t = i * p + p := by omega
    rw [← hb]
    show min (i * p + p) t - i * p = p
    omega
  · rw [hgetD, hcount]
  · rw [hgetD, hcount]; omega
  · rw [hgetD, hcount]; omega

/-- Witness for `split_pdf_partition` at a 5-page document with 2 pages per
chunk. -/
theorem split_pdf_partition_witness :
    (split_pdf true 5 2 "doc").success = true ∧
    (split_pdf true 5 2 "doc").total_splits = (5 + 2 - 1) / 2 ∧
    5 ≤ (split_pdf true 5 2 "doc").total_splits * 2 ∧
    ((split_pdf true 5 2 "doc").total_splits - 1) * 2 < 5 ∧
    (split_pdf true 5 2 "doc").files.length = (split_pdf true 5 2 "doc").total_splits ∧
    (((split_pdf true 5 2 "doc").files.map pages_of).flatten = List.range' 1 5) ∧
    ((split_pdf true 5 2 "doc").files.map (fun f => f.first_page) =
      (List.range ((5 + 2 - 1) / 2)).map (fun i => i * 2 + 1)) ∧
    (((split_pdf true 5 2 "doc").files.dropLast).map (fun f => f.page_count) =
      List.replicate ((5 + 2 - 1) / 2 - 1) 2) ∧
    ((split_pdf true 5 2 "doc").files.getD ((5 + 2 - 1) / 2 - 1) dummy_file).page_count =
      5 - ((5 + 2 - 1) / 2 - 1) * 2 ∧
    1 ≤ ((split_pdf true 5 2 "doc").files.getD ((5 + 2 - 1) / 2 - 1) dummy_file).page_count ∧
    ((split_pdf true 5 2 "doc").files.getD ((5 + 2 - 1) / 2 - 1) dummy_file).page_count ≤ 2 :=
  split_pdf_partition 5 2 "doc" (by decide) (by decide)

/-- Folded minimum is below the initial accumulator. -/
theorem foldl_min_le_init (ps : List Nat) : ∀ acc, ps.foldl Nat.min acc ≤ acc := by
  induction ps with
  | nil => intro acc; simp
  | cons q qs ih =>
    intro acc
    exact le_trans (ih (Nat.min acc q)) (Nat.min_le_left _ _)

/-- Folded minimum is below every list element. -/
theorem foldl_min_le_mem (ps : List Nat) : ∀ acc x, x ∈ ps → ps.foldl Nat.min acc ≤ x := by
  induction ps with
  | nil => intro acc x hx; cases hx
  | cons q qs ih =>
    intro acc x hx
    rcases List.mem_cons.1 hx with h | h
    · subst h
      exact le_trans (foldl_min_le_init qs _) (Nat.min_le_right _ _)
    · exact ih _ _ h

/-- Folded maximum is above the initial accumulator. -/
theorem foldl_max_ge_init (ps : List Nat) : ∀ acc, acc ≤ ps.foldl Nat.max acc := by
  induction ps with
  | nil => intro acc; simp
  | cons q qs ih =>
    intro acc
    exact le_trans (Nat.le_max_left _ _) (ih (Nat.max acc q))

/-- Folded maximum is above every list element. -/
theorem foldl_max_ge_mem (ps : List Nat) : ∀ acc x, x ∈ ps → x ≤ ps.foldl Nat.max acc := by
  induction ps with
  | nil => intro acc x hx; cases hx
  | cons q qs ih =>
    intro acc x hx
    rcases List.mem_cons.1 hx with h | h
    · subst h
      exact le_trans (Nat.le_max_right _ _) (foldl_max_ge_init qs _)
    · exact ih _ _ h

/-- `_process_single_page_ocr` always returns its own page number paired with
the page text: no exception escapes it. -/
theorem process_single_page_ocr_eq (engine : Nat → Except String String) (q : Nat) :
    process_single_page_ocr (engine q) q = (q, ocr_page_text engine q) := by
  unfold process_single_page_ocr ocr_page_text
  cases engine q <;> rfl

/-- `_extract_text_with_ocr_memory` maps the page-image list through the
per-page worker. -/
theorem extract_text_with_ocr_memory_eq (page_numbers : List Nat)
    (engine : Nat → Except String String) :
    extract_text_with_ocr_memory page_numbers engine =
      (ocr_page_images page_numbers).map (fun q => (q, ocr_page_text engine q)) := by
  unfold extract_text_with_ocr_memory ocr_page_images
  cases page_numbers with
  | nil => rfl
  | cons p ps =>
    simp only
    rw [List.map_congr_left]
    intro q _
    exact process_single_page_ocr_eq engine q

/-- Membership in the page-image list is exactly membership in the requested
pages: every requested page lies in the rasterized contiguous range, and the
filter keeps exactly the requested ones. -/
theorem mem_ocr_page_images (page_numbers : List Nat) (q : Nat) :
    q ∈ ocr_page_images page_numbers ↔ q ∈ page_numbers := by
  cases page_numbers with
  | nil => simp [ocr_page_images]
  | cons p ps =>
    unfold ocr_page_images
    simp only [List.mem_filter, List.mem_map, List.mem_range, decide_eq_true_eq]
    constructor
    · rintro ⟨-, hq⟩
      exact hq
    · intro hq
      have h1 : ps.foldl Nat.min p ≤ q := by
        rcases List.mem_cons.1 hq with h | h
        · have := foldl_min_le_init ps p
          omega
        · exact foldl_min_le_mem ps p q h
      have h2 : q ≤ ps.foldl Nat.max p := by
        rcases List.mem_cons.1 hq with h | h
        · have := foldl_max_ge_init ps p
          omega
        · exact foldl_max_ge_mem ps p q h
      refine ⟨⟨q - ps.foldl Nat.min p, ?_, ?_⟩, hq⟩
      · omega
      · omega

/-- The page-image list has no duplicate page numbers. -/
theorem ocr_page_images_nodup (page_numbers : List Nat) :
    (ocr_page_images page_numbers).Nodup := by
  cases page_numbers with
  | nil => simp [ocr_page_images]
  | cons p ps =>
    unfold ocr_page_images
    refine List.Nodup.filter _ (List.Nodup.map ?_ (List.nodup_range _))
    intro a b hab
    exact Nat.add_right_cancel hab

/-- Keyed lookup in a list of self-keyed pairs finds the mapped value of any
member key. -/
theorem lookup_map_self {β : Type} (f : Nat → β) (l : List Nat) (q : Nat) (hq : q ∈ l) :
    (l.map (fun p => (p, f p))).lookup q = some (f q) := by
  induction l with
  | nil => cases hq
  | cons p ps ih =>
    by_cases h : q = p
    · subst h
      simp [List.lookup]
    · have hbeq : (q == p) = false := by simp [h]
      have hmem : q ∈ ps := by
        rcases List.mem_cons.1 hq with h1 | h1
        · exact absurd h1 h
        · exact h1
      simp [List.lookup, hbeq, ih hmem]

/-- Two duplicate-free lists with the same members are permutations. -/
theorem perm_of_nodup_mem_iff {l₁ l₂ : List Nat} (h₁ : l₁.Nodup) (h₂ : l₂.Nodup)
    (h : ∀ a, a ∈ l₁ ↔ a ∈ l₂) : l₁.Perm l₂ := by
  rw [List.perm_iff_count]
  intro a
  by_cases ha : a ∈ l₁
  · rw [List.count_eq_one_of_mem h₁ ha, List.count_eq_one_of_mem h₂ ((h a).1 ha)]
  · rw [List.count_eq_zero_of_not_mem ha,
      List.count_eq_zero_of_not_mem (fun hc => ha ((h a).2 hc))]

/-- C4: for every non-empty duplicate-free list of requested page numbers and
every recognition engine, the key list of the map returned by
`_extract_text_with_ocr_memory` is a permutation of the requested pages:
exactly one entry per requested page, no entry for an unrequested page. -/
theorem ocr_map_exactly_requested (page_numbers : List Nat)
    (engine : Nat → Except String String)
    (hne : page_numbers ≠ []) (hnd : page_numbers.Nodup) :
    ((extract_text_with_ocr_memory page_numbers engine).map Prod.fst).Perm page_numbers := by
  rw [extract_text_with_ocr_memory_eq, List.map_map]
  have hfst : (Prod.fst ∘ fun q => (q, ocr_page_text engine q)) = id := rfl
  rw [hfst, List.map_id]
  exact perm_of_nodup_mem_iff (ocr_page_images_nodup _) hnd
    (fun a => mem_ocr_page_images page_numbers a)

/-- Witness for `ocr_map_exactly_requested` on pages 2, 5, 3 of a document. -/
theorem ocr_map_exactly_requested_witness :
    ((extract_text_with_ocr_memory [2, 5, 3] (fun _ => .ok "t")).map Prod.fst).Perm
      [2, 5, 3] :=
  ocr_map_exactly_requested [2, 5, 3] (fun _ => .ok "t") (by decide) (by decide)

/-- `extract_text` on a successfully parsed, non-empty document never sets the
document-level error slot, whatever the engine does. -/
theorem extract_text_ok_error_none (h : String) (reads : List PageRead)
    (engine : Nat → Except String String) (use_ocr : Bool) (min_chars : Nat)
    (hne : reads ≠ []) :
    (extract_text h (.ok reads) engine use_ocr min_chars).error = none := by
  obtain ⟨r, rs, rfl⟩ := List.exists_cons_of_ne_nil hne
  have hlen : (extract_text_from_pdf_memory min_chars (r :: rs)).length = rs.length + 1 := by
    unfold extract_text_from_pdf_memory
    rw [List.length_map, List.enum_length]
    rfl
  have hempty : (extract_text_from_pdf_memory min_chars (r :: rs)).isEmpty = false := by
    rcases hE : (extract_text_from_pdf_memory min_chars (r :: rs)) with _ | ⟨x, xs⟩
    · rw [hE] at hlen
      simp at hlen
    · rfl
  unfold extract_text
  simp only [hempty]
  rfl

/-- C1: for every document, every set of pages submitted for recognition, and
every engine, a recognition failure on one page `q` (the engine raising, here
`engine q = .error e`) is caught and becomes page `q`'s entry in the result
map as the inline error marker; any sibling page `p` whose recognition
succeeds still gets its recognized (normalized) text as its own entry; and the
top-level `extract_text` on any successfully parsed non-empty document returns
a complete report with the document-level error slot empty — the per-page
fault never propagates past the top level. -/
theorem ocr_failure_isolated (page_numbers : List Nat)
    (engine : Nat → Except String String) (q p : Nat) (e t : String)
    (file_hash : String) (reads : List PageRead) (use_ocr : Bool) (min_chars : Nat)
    (hq : q ∈ page_numbers) (hqe : engine q = .error e)
    (hp : p ∈ page_numbers) (hpt : engine p = .ok t)
    (hreads : reads ≠ []) :
    (extract_text_with_ocr_memory page_numbers engine).lookup q =
      some ("[OCR Error: " ++ e ++ "]") ∧
    (extract_text_with_ocr_memory page_numbers engine).lookup p =
      some (clean_text (fix_japanese_spacing t)) ∧
    (extract_text file_hash (.ok reads) engine use_ocr min_chars).error = none := by
  refine ⟨?_, ?_, extract_text_ok_error_none file_hash reads engine use_ocr min_chars hreads⟩
  · rw [extract_text_with_ocr_memory_eq,
      lookup_map_self _ _ q ((mem_ocr_page_images page_numbers q).2 hq)]
    unfold ocr_page_text
    rw [hqe]
  · rw [extract_text_with_ocr_memory_eq,
      lookup_map_self _ _ p ((mem_ocr_page_images page_numbers p).2 hp)]
    unfold ocr_page_text
    rw [hpt]

/-- Witness for `ocr_failure_isolated`: of the two requested pages 1 and 2,
page 2 raises a simulated engine fault; page 2's entry is the inline marker,
page 1 is recognized, and `extract_text` reports no document-level error. -/
theorem ocr_failure_isolated_witness :
    (extract_text_with_ocr_memory [1, 2] faulty_engine).lookup 2 =
      some ("[OCR Error: " ++ "RuntimeError - boom" ++ "]") ∧
    (extract_text_with_ocr_memory [1, 2] faulty_engine).lookup 1 =
      some (clean_text (fix_japanese_spacing "hello")) ∧
    (extract_text "h" (.ok [PageRead.ok (some "short")]) faulty_engine true 50).error =
      none :=
  ocr_failure_isolated [1, 2] faulty_engine 2 1 "RuntimeError - boom" "hello" "h"
    [PageRead.ok (some "short")] true 50 (by decide) rfl (by decide) rfl (by decide)

/-- With duplicate-free keys, a successful lookup is exactly membership of the
key-value pair. -/
theorem lookup_eq_some_iff (r : List (Nat × String)) (hnd : (r.map Prod.fst).Nodup)
    (n : Nat) (v : String) : r.lookup n = some v ↔ (n, v) ∈ r := by
  induction r with
  | nil => simp [List.lookup]
  | cons kv rest ih =>
    obtain ⟨k, b⟩ := kv
    simp only [List.map_cons, List.nodup_cons] at hnd
    by_cases h : n = k
    · subst h
      simp only [List.lookup, beq_self_eq_true]
      constructor
      · intro hv
        rw [Option.some_inj] at hv
        subst hv
        exact List.mem_cons_self _ _
      · intro hv
        rcases List.mem_cons.1 hv with h1 | h1
        · rw [Prod.mk.injEq] at h1
          rw [h1.2]
        · exact absurd (List.mem_map_of_mem Prod.fst h1) hnd.1
    · have hbeq : (n == k) = false := by simp [h]
      simp only [List.lookup, hbeq]
      rw [ih hnd.2]
      constructor
      · exact fun h1 => List.mem_cons_of_mem _ h1
      · intro h1
        rcases List.mem_cons.1 h1 with h2 | h2
        · rw [Prod.mk.injEq] at h2
          exact absurd h2.1 h
        · exact h2

/-- A failed lookup is exactly absence of the key. -/
theorem lookup_eq_none_iff (r : List (Nat × String)) (n : Nat) :
    r.lookup n = none ↔ n ∉ r.map Prod.fst := by
  induction r with
  | nil => simp [List.lookup]
  | cons kv rest ih =>
    obtain ⟨k, b⟩ := kv
    by_cases h : n = k
    · subst h
      simp [List.lookup]
    · have hbeq : (n == k) = false := by simp [h]
      simp only [List.lookup, hbeq, List.map_cons, List.mem_cons]
      rw [ih]
      constructor
      · intro h1 h2
        rcases h2 with h2 | h2
        · exact h h2
        · exact h1 h2
      · intro h1 h2
        exact h1 (Or.inr h2)

/-- Lookups agree on any two permuted result collections with duplicate-free
keys: the OCR result dictionary is insensitive to worker completion order. -/
theorem perm_lookup_eq (r₁ r₂ : List (Nat × String)) (hperm : r₁.Perm r₂)
    (hnd : (r₁.map Prod.fst).Nodup) (n : Nat) : r₁.lookup n = r₂.lookup n := by
  have hnd₂ : (r₂.map Prod.fst).Nodup := ((hperm.map Prod.fst).nodup_iff).1 hnd
  rcases h1 : r₁.lookup n with _ | v
  · rw [lookup_eq_none_iff] at h1
    have : n ∉ r₂.map Prod.fst := fun hc => h1 ((hperm.map Prod.fst).mem_iff.2 hc)
    rw [← lookup_eq_none_iff] at this
    rw [this]
  · rw [lookup_eq_some_iff _ hnd] at h1
    rw [(lookup_eq_some_iff _ hnd₂ n v).2 (hperm.mem_iff.1 h1)]

/-- The merge update of step 3 is identical on permuted result collections. -/
theorem apply_ocr_results_perm (r₁ r₂ : List (Nat × String))
    (fr : List (Nat × String × PageMethod)) (hperm : r₁.Perm r₂)
    (hnd : (r₁.map Prod.fst).Nodup) :
    apply_ocr_results r₁ fr = apply_ocr_results r₂ fr := by
  induction fr with
  | nil => rfl
  | cons x fr ih =>
    obtain ⟨n, t, m⟩ := x
    simp only [apply_ocr_results, ih]
    cases m <;> simp [perm_lookup_eq r₁ r₂ hperm hnd n]

/-- The merge update preserves the page numbers of `final_results`. -/
theorem apply_ocr_results_fst (r : List (Nat × String))
    (fr : List (Nat × String × PageMethod)) :
    (apply_ocr_results r fr).1.map (fun x => x.1) = fr.map (fun x => x.1) := by
  induction fr with
  | nil => rfl
  | cons x fr ih =>
    obtain ⟨n, t, m⟩ := x
    cases m <;> simp [apply_ocr_results, ih]

/-- Step 2 preserves the page numbers of the extracted page list. -/
theorem classify_pages_fst (use_ocr : Bool) (pgs : List (Nat × String × Bool)) :
    (classify_pages use_ocr pgs).1.map (fun x => x.1) = pgs.map (fun x => x.1) := by
  induction pgs with
  | nil => rfl
  | cons x pgs ih =>
    obtain ⟨n, t, rich⟩ := x
    cases rich <;> cases use_ocr <;> simp [classify_pages, ih]

/-- The page numbers of the parsed page list are `1, 2, ..., N` in ascending
order. -/
theorem extract_pages_fst (min_chars : Nat) (reads : List PageRead) :
    (extract_text_from_pdf_memory min_chars reads).map (fun x => x.1) =
      List.range' 1 reads.length := by
  unfold extract_text_from_pdf_memory
  rw [List.map_map]
  have hcomp : ((fun x => x.1) ∘ fun p : Nat × PageRead =>
      (match p.2 with
        | .failed _ => (p.1 + 1, "", false)
        | .ok t =>
          let cleaned :=
            match t with
            | none => ""
            | some s => if s = "" then "" else clean_text s
          (p.1 + 1, cleaned, is_text_rich_page min_chars cleaned))) =
      (fun p : Nat × PageRead => p.1 + 1) := by
    funext p
    rcases p with ⟨i, pr⟩
    cases pr <;> rfl
  rw [hcomp]
  have : (fun p : Nat × PageRead => p.1 + 1) = (fun n : Nat => n + 1) ∘ Prod.fst := rfl
  rw [this, ← List.map_map, List.enum_map_fst, List.range'_eq_map_range]
  congr 1
  funext i
  omega

/-- C5: for every list of classified page results and every two recognition
result collections holding the same per-page entries in different completion
orders (a permutation with duplicate-free page keys), the merge steps produce
identical updated results and identical concatenated output text; and when the
classified results are in strictly ascending page order — as they are for
every parsed document, whose page numbers are `1, ..., N` — the pages included
in the output text stay in strictly ascending page-number order. -/
theorem merge_order_invariant (fr : List (Nat × String × PageMethod))
    (r₁ r₂ : List (Nat × String)) (min_chars : Nat) (reads : List PageRead)
    (hperm : r₁.Perm r₂) (hnd : (r₁.map Prod.fst).Nodup)
    (hs : List.Sorted (· < ·) (fr.map (fun x => x.1))) :
    apply_ocr_results r₁ fr = apply_ocr_results r₂ fr ∧
    combine_text (apply_ocr_results r₁ fr).1 = combine_text (apply_ocr_results r₂ fr).1 ∧
    List.Sorted (· < ·)
      (((apply_ocr_results r₁ fr).1.filter
          (fun x => x.2.1 ≠ "" && !(starts_with_bracket x.2.1))).map (fun x => x.1)) ∧
    List.Sorted (· < ·)
      ((extract_text_from_pdf_memory min_chars reads).map (fun x => x.1)) := by
  have heq := apply_ocr_results_perm r₁ r₂ fr hperm hnd
  refine ⟨heq, by rw [heq], ?_, ?_⟩
  · have hsub :
        (((apply_ocr_results r₁ fr).1.filter
            (fun x => x.2.1 ≠ "" && !(starts_with_bracket x.2.1))).map (fun x => x.1)).Sublist
          ((apply_ocr_results r₁ fr).1.map (fun x => x.1)) :=
      List.Sublist.map _ (List.filter_sublist _)
    rw [apply_ocr_results_fst] at hsub
    exact List.Pairwise.sublist hsub hs
  · rw [extract_pages_fst]
    exact List.pairwise_lt_range' 1 reads.length

/-- Witness for `merge_order_invariant`: two OCR result collections assembled
in opposite completion orders merge identically into a two-page document. -/
theorem merge_order_invariant_witness :
    apply_ocr_results [(1, "x"), (2, "y")]
        [(1, "a", PageMethod.ocrPending), (2, "b", PageMethod.pdf)] =
      apply_ocr_results [(2, "y"), (1, "x")]
        [(1, "a", PageMethod.ocrPending), (2, "b", PageMethod.pdf)] ∧
    combine_text (apply_ocr_results [(1, "x"), (2, "y")]
        [(1, "a", PageMethod.ocrPending), (2, "b", PageMethod.pdf)]).1 =
      combine_text (apply_ocr_results [(2, "y"), (1, "x")]
        [(1, "a", PageMethod.ocrPending), (2, "b", PageMethod.pdf)]).1 ∧
    List.Sorted (· < ·)
      (((apply_ocr_results [(1, "x"), (2, "y")]
          [(1, "a", PageMethod.ocrPending), (2, "b", PageMethod.pdf)]).1.filter
            (fun x => x.2.1 ≠ "" && !(starts_with_bracket x.2.1))).map (fun x => x.1)) ∧
    List.Sorted (· < ·)
      ((extract_text_from_pdf_memory 50 [PageRead.ok (some "u"), PageRead.failed "v"]).map
        (fun x => x.1)) :=
  merge_order_invariant [(1, "a", PageMethod.ocrPending), (2, "b", PageMethod.pdf)]
    [(1, "x"), (2, "y")] [(2, "y"), (1, "x")] 50
    [PageRead.ok (some "u"), PageRead.failed "v"]
    (List.Perm.swap _ _ _) (by decide)
    (by
      simp only [List.map_cons, List.map_nil]
      exact List.sorted_cons.2 ⟨by intro b hb; simp at hb; omega, List.sorted_singleton _⟩)

/-- Counting facts for step 2: the `pdf_pages` counter plus the number of
pages sent to recognition is the page total; the recognition list is exactly
the pending entries; and without `use_ocr` no page is sent to recognition. -/
theorem classify_pages_counts (use_ocr : Bool) (pgs : List (Nat × String × Bool)) :
    (classify_pages use_ocr pgs).2.2 + (classify_pages use_ocr pgs).2.1.length = pgs.length ∧
    (classify_pages use_ocr pgs).2.1.length =
      (classify_pages use_ocr pgs).1.countP is_pending ∧
    (use_ocr = false → (classify_pages use_ocr pgs).2.1 = []) := by
  induction pgs with
  | nil => exact ⟨rfl, rfl, fun _ => rfl⟩
  | cons x pgs ih =>
    obtain ⟨n, t, rich⟩ := x
    obtain ⟨ih1, ih2, ih3⟩ := ih
    cases rich <;> cases use_ocr <;>
      simp_all [classify_pages, is_pending, List.countP_cons] <;> omega

/-- Step 3 retags exactly the pending entries, so the `ocr_pages` counter is
the pending count. -/
theorem apply_ocr_results_count (ocr : List (Nat × String))
    (fr : List (Nat × String × PageMethod)) :
    (apply_ocr_results ocr fr).2 = fr.countP is_pending := by
  induction fr with
  | nil => rfl
  | cons x fr ih =>
    obtain ⟨n, t, m⟩ := x
    cases m <;> simp [apply_ocr_results, ih, is_pending, List.countP_cons]

/-- C10: for every successfully parsed non-empty document, any engine and any
`use_ocr` choice, `extract_text` finishes without a document-level error and
its per-page counters partition the document: pages tagged from embedded PDF
text plus pages tagged from recognition equal the total page count. -/
theorem report_counters_partition (h : String) (reads : List PageRead)
    (engine : Nat → Except String String) (use_ocr : Bool) (min_chars : Nat)
    (hne : reads ≠ []) :
    (extract_text h (.ok reads) engine use_ocr min_chars).error = none ∧
    (extract_text h (.ok reads) engine use_ocr min_chars).metadata.pdf_pages +
        (extract_text h (.ok reads) engine use_ocr min_chars).metadata.ocr_pages =
      (extract_text h (.ok reads) engine use_ocr min_chars).metadata.total_pages := by
  refine ⟨extract_text_ok_error_none h reads engine use_ocr min_chars hne, ?_⟩
  obtain ⟨r, rs, rfl⟩ := List.exists_cons_of_ne_nil hne
  have hlen : (extract_text_from_pdf_memory min_chars (r :: rs)).length = rs.length + 1 := by
    unfold extract_text_from_pdf_memory
    rw [List.length_map, List.enum_length]
    rfl
  have hempty : (extract_text_from_pdf_memory min_chars (r :: rs)).isEmpty = false := by
    rcases hE : (extract_text_from_pdf_memory min_chars (r :: rs)) with _ | ⟨x, xs⟩
    · rw [hE] at hlen
      simp at hlen
    · rfl
  unfold extract_text
  simp only [hempty, Bool.false_eq_true, if_false]
  set pgs := extract_text_from_pdf_memory min_chars (r :: rs) with hpgs
  obtain ⟨h1, h2, h3⟩ := classify_pages_counts use_ocr pgs
  by_cases hcond : (!(classify_pages use_ocr pgs).2.1.isEmpty && use_ocr) = true
  · rw [if_pos hcond]
    rw [apply_ocr_results_count]
    omega
  · rw [if_neg hcond]
    have hop : (classify_pages use_ocr pgs).2.1 = [] := by
      by_cases huo : use_ocr = true
      · have hie : (classify_pages use_ocr pgs).2.1.isEmpty = true := by
          revert hcond
          rw [huo]
          cases hie : (classify_pages use_ocr pgs).2.1.isEmpty <;> simp
        exact List.isEmpty_iff.1 hie
      · refine h3 ?_
        revert huo
        cases use_ocr <;> simp
    rw [hop] at h1
    simpa using h1

/-- Witness for `report_counters_partition` on a two-page document with one
text-rich read and one failed read. -/
theorem report_counters_partition_witness :
    (extract_text "h" (.ok [PageRead.ok (some "a"), PageRead.failed "x"])
        (fun _ => .ok "t") true 50).error = none ∧
    (extract_text "h" (.ok [PageRead.ok (some "a"), PageRead.failed "x"])
          (fun _ => .ok "t") true 50).metadata.pdf_pages +
        (extract_text "h" (.ok [PageRead.ok (some "a"), PageRead.failed "x"])
          (fun _ => .ok "t") true 50).metadata.ocr_pages =
      (extract_text "h" (.ok [PageRead.ok (some "a"), PageRead.failed "x"])
          (fun _ => .ok "t") true 50).metadata.total_pages :=
  report_counters_partition "h" [PageRead.ok (some "a"), PageRead.failed "x"]
    (fun _ => .ok "t") true 50 (by decide)

/-- On text without Japanese characters the first substitution never fires. -/
theorem subJJ_id (l : List Char) (h : ∀ c ∈ l, isJchar c = false) : subJJ l = l := by
  unfold subJJ
  induction l with
  | nil => rfl
  | cons c rest ih =>
    have hc : isJchar c = false := h c (List.mem_cons_self _ _)
    simp only [subJJAux, hc, Bool.false_eq_true, if_false]
    rw [ih (fun a ha => h a (List.mem_cons_of_mem _ ha))]

/-- On text without closing Japanese punctuation the second substitution never
fires: the pending run is flushed unchanged. -/
theorem subCloseAux_id (l : List Char) (h : ∀ c ∈ l, isCloser c = false) :
    ∀ pend, subCloseAux pend l = pend ++ l := by
  induction l with
  | nil => intro pend; simp [subCloseAux]
  | cons c rest ih =>
    intro pend
    have hc : isCloser c = false := h c (List.mem_cons_self _ _)
    have ih' := ih (fun a ha => h a (List.mem_cons_of_mem _ ha))
    by_cases hw : isWsChar c = true
    · simp only [subCloseAux, hw, if_true]
      rw [ih' (pend ++ [c])]
      simp
    · simp only [subCloseAux, hw, hc, Bool.false_and, Bool.false_eq_true, if_false]
      rw [ih' []]
      simp

/-- On text without closing Japanese punctuation the second substitution is
the identity. -/
theorem subClose_id (l : List Char) (h : ∀ c ∈ l, isCloser c = false) :
    subClose l = l := by
  unfold subClose
  rw [subCloseAux_id l h []]
  rfl

/-- On text without opening Japanese punctuation the third substitution is the
identity. -/
theorem subOpen_id (l : List Char) (h : ∀ c ∈ l, isOpener c = false) :
    subOpen l = l := by
  unfold subOpen
  induction l with
  | nil => rfl
  | cons c rest ih =>
    have hc : isOpener c = false := h c (List.mem_cons_self _ _)
    simp only [subOpenAux, Bool.false_and, hc, Bool.false_eq_true, if_false]
    rw [ih (fun a ha => h a (List.mem_cons_of_mem _ ha))]

/-- On plain text (no Japanese characters or Japanese punctuation) the fixup
reduces to whitespace collapsing followed by stripping: the non-logographic
segments are therefore normalized, not left untouched. -/
theorem fix_japanese_spacing_plain (s : String) (hs : s ≠ "")
    (h : ∀ c ∈ s.data, isJchar c = false ∧ isCloser c = false ∧ isOpener c = false) :
    fix_japanese_spacing s = ⟨stripWs (subWs s.data)⟩ := by
  unfold fix_japanese_spacing
  rw [if_neg hs, subJJ_id _ (fun c hc => (h c hc).1),
    subClose_id _ (fun c hc => (h c hc).2.1), subOpen_id _ (fun c hc => (h c hc).2.2)]

/-- A pending whitespace run accumulates through the first substitution's
scanner. -/
theorem subJJAux_acc (ws : List Char) (hws : ∀ w ∈ ws, isWsChar w = true) :
    ∀ (j : Char) (acc l : List Char),
      subJJAux (some (j, acc)) (ws ++ l) = subJJAux (some (j, acc ++ ws)) l := by
  induction ws with
  | nil => intro j acc l; simp
  | cons w ws ih =>
    intro j acc l
    have hw : isWsChar w = true := hws w (List.mem_cons_self _ _)
    simp only [List.cons_append, subJJAux, hw, if_true]
    show subJJAux (some (j, acc ++ [w])) (ws ++ l) = _
    rw [ih (fun a ha => hws a (List.mem_cons_of_mem _ ha)) j (acc ++ [w]) l]
    simp

/-- The doubling behavior of the first substitution: a Japanese character,
a whitespace run, and a second Japanese character are replaced by the first
character twice — the run is removed but the second character is dropped,
because the replacement `\1\2` names the two groups wrapping the first
character. -/
theorem subJJ_doubles (c d : Char) (ws : List Char) (hc : isJchar c = true)
    (hd : isJchar d = true) (hdw : isWsChar d = false) (hne : ws ≠ [])
    (hws : ∀ w ∈ ws, isWsChar w = true) :
    subJJ (c :: ws ++ [d]) = [c, c] := by
  unfold subJJ
  simp only [List.cons_append, subJJAux, hc, if_true]
  show subJJAux (some (c, [])) (ws ++ [d]) = [c, c]
  rw [subJJAux_acc ws hws c [] [d]]
  have hwse : (([] : List Char) ++ ws).isEmpty = false := by
    cases ws with
    | nil => exact absurd rfl hne
    | cons a l => rfl
  simp only [subJJAux, hdw, Bool.false_eq_true, if_false, hd, if_true, hwse]

/-- A pending whitespace run accumulates through the second substitution's
scanner. -/
theorem subCloseAux_acc (ws : List Char) (hws : ∀ w ∈ ws, isWsChar w = true) :
    ∀ (pend l : List Char),
      subCloseAux pend (ws ++ l) = subCloseAux (pend ++ ws) l := by
  induction ws with
  | nil => intro pend l; simp
  | cons w ws ih =>
    intro pend l
    have hw : isWsChar w = true := hws w (List.mem_cons_self _ _)
    simp only [List.cons_append, subCloseAux, hw, if_true]
    show subCloseAux (pend ++ [w]) (ws ++ l) = _
    rw [ih (fun a ha => hws a (List.mem_cons_of_mem _ ha)) (pend ++ [w]) l]
    simp

/-- Whitespace directly before a closing Japanese punctuation mark is removed
by the second substitution. -/
theorem subClose_removes (e : Char) (ws : List Char) (he : isCloser e = true)
    (hne : ws ≠ []) (hws : ∀ w ∈ ws, isWsChar w = true) :
    subClose (ws ++ [e]) = [e] := by
  unfold subClose
  rw [subCloseAux_acc ws hws [] [e]]
  have hce : e = '。' ∨ e = '、' ∨ e = '！' ∨ e = '？' ∨ e = '）' ∨ e = '」' ∨
      e = '』' ∨ e = '】' := by
    simpa [isCloser, or_assoc] using he
  have hwe : isWsChar e = false := by
    rcases hce with h | h | h | h | h | h | h | h <;> subst h <;> decide
  have hpe : (([] : List Char) ++ ws).isEmpty = false := by
    cases ws with
    | nil => exact absurd rfl hne
    | cons a l => rfl
  simp only [subCloseAux, hwe, Bool.false_eq_true, if_false, he, hpe, Bool.not_false,
    Bool.and_true, Bool.true_and, if_true]

/-- After an opening mark the scanner of the third substitution swallows a
whitespace run. -/
theorem subOpenAux_skip (ws : List Char) (hws : ∀ w ∈ ws, isWsChar w = true) :
    subOpenAux true ws = [] := by
  induction ws with
  | nil => rfl
  | cons w ws ih =>
    have hw : isWsChar w = true := hws w (List.mem_cons_self _ _)
    simp only [subOpenAux, hw, Bool.and_true, if_true]
    exact ih (fun a ha => hws a (List.mem_cons_of_mem _ ha))

/-- Whitespace directly after an opening Japanese punctuation mark is removed
by the third substitution. -/
theorem subOpen_removes (o : Char) (ws : List Char) (ho : isOpener o = true)
    (hws : ∀ w ∈ ws, isWsChar w = true) :
    subOpen (o :: ws) = [o] := by
  unfold subOpen
  simp only [subOpenAux, Bool.false_and, Bool.false_eq_true, if_false, ho, if_true]
  rw [subOpenAux_skip ws hws]

/-- The first character emitted after the scanner has just swallowed
whitespace is never whitespace. -/
theorem subWsAux_head_not_ws (l : List Char) :
    ∀ c, (subWsAux true l).head? = some c → isWsChar c = false := by
  induction l with
  | nil => intro c hc; cases hc
  | cons a rest ih =>
    intro c hc
    by_cases ha : isWsChar a = true
    · simp only [subWsAux, ha, if_true] at hc
      exact ih c hc
    · have ha' : isWsChar a = false := by revert ha; cases isWsChar a <;> simp
      simp only [subWsAux, ha', Bool.false_eq_true, if_false, List.head?_cons,
        Option.some_inj] at hc
      rw [← hc]
      exact ha'

/-- Every character of the collapsed output is a space or a non-whitespace
character of the input. -/
theorem subWs_mem (l : List Char) :
    ∀ b c, c ∈ subWsAux b l → c = ' ' ∨ (c ∈ l ∧ isWsChar c = false) := by
  induction l with
  | nil => intro b c hc; cases hc
  | cons a rest ih =>
    intro b c hc
    by_cases ha : isWsChar a = true
    · simp only [subWsAux, ha, if_true] at hc
      by_cases hb : b
      · rw [if_pos hb] at hc
        rcases ih true c hc with h | h
        · exact Or.inl h
        · exact Or.inr ⟨List.mem_cons_of_mem _ h.1, h.2⟩
      · rw [if_neg hb] at hc
        rcases List.mem_cons.1 hc with h | h
        · exact Or.inl h
        · rcases ih true c h with h1 | h1
          · exact Or.inl h1
          · exact Or.inr ⟨List.mem_cons_of_mem _ h1.1, h1.2⟩
    · have ha' : isWsChar a = false := by revert ha; cases isWsChar a <;> simp
      simp only [subWsAux, ha', Bool.false_eq_true, if_false] at hc
      rcases List.mem_cons.1 hc with h | h
      · subst h
        exact Or.inr ⟨List.mem_cons_self _ _, ha'⟩
      · rcases ih false c h with h1 | h1
        · exact Or.inl h1
        · exact Or.inr ⟨List.mem_cons_of_mem _ h1.1, h1.2⟩

/-- The collapsed output never has two adjacent whitespace characters. -/
theorem subWs_chain (l : List Char) : ∀ b, (subWsAux b l).Chain' NoWsPair := by
  induction l with
  | nil => intro b; exact List.chain'_nil
  | cons a rest ih =>
    intro b
    by_cases ha : isWsChar a = true
    · simp only [subWsAux, ha, if_true]
      by_cases hb : b
      · rw [if_pos hb]; exact ih true
      · rw [if_neg hb]
        rw [List.chain'_cons']
        refine ⟨?_, ih true⟩
        intro y hy
        intro hpair
        rw [subWsAux_head_not_ws rest y hy] at hpair
        exact Bool.false_ne_true hpair.2
    · have ha' : isWsChar a = false := by revert ha; cases isWsChar a <;> simp
      simp only [subWsAux, ha', Bool.false_eq_true, if_false]
      rw [List.chain'_cons']
      refine ⟨?_, ih false⟩
      intro y hy
      intro hpair
      rw [ha'] at hpair
      exact Bool.false_ne_true hpair.1

/-- The fourth substitution always produces a collapsed list. -/
theorem collapsed_subWs (l : List Char) : Collapsed (subWs l) := by
  constructor
  · intro c hc hw
    rcases subWs_mem l false c hc with h | h
    · exact h
    · rw [h.2] at hw
      exact absurd hw Bool.false_ne_true
  · exact subWs_chain l false

/-- A collapsed list is a fixed point of the fourth substitution. -/
theorem subWsAux_eq_self (l : List Char) (hC : Collapsed l) :
    subWsAux false l = l ∧
      ((∀ c, l.head? = some c → isWsChar c = false) → subWsAux true l = l) := by
  induction l with
  | nil => exact ⟨rfl, fun _ => rfl⟩
  | cons a rest ih =>
    have hCrest : Collapsed rest :=
      ⟨fun c hc hw => hC.1 c (List.mem_cons_of_mem _ hc) hw,
        (List.chain'_cons'.1 hC.2).2⟩
    obtain ⟨ih1, ih2⟩ := ih hCrest
    have hlink := (List.chain'_cons'.1 hC.2).1
    by_cases ha : isWsChar a = true
    · have hasp : a = ' ' := hC.1 a (List.mem_cons_self _ _) ha
      have hrest_head : ∀ c, rest.head? = some c → isWsChar c = false := by
        intro c hc
        have := hlink c hc
        unfold NoWsPair at this
        revert this
        rw [ha]
        cases isWsChar c <;> simp
      constructor
      · simp only [subWsAux, ha, if_true, if_neg (by simp : ¬False)]
        rw [if_neg Bool.false_ne_true, ih2 hrest_head, hasp]
      · intro hhead
        have := hhead a rfl
        rw [ha] at this
        exact absurd this (by decide)
    · have ha' : isWsChar a = false := by revert ha; cases isWsChar a <;> simp
      constructor
      · simp only [subWsAux, ha', Bool.false_eq_true, if_false]
        rw [ih1]
      · intro _
        simp only [subWsAux, ha', Bool.false_eq_true, if_false]
        rw [ih1]

/-- Collapsedness passes to suffixes. -/
theorem collapsed_suffix {l l' : List Char} (h : Collapsed l) (hs : l' <:+ l) :
    Collapsed l' :=
  ⟨fun c hc hw => h.1 c (hs.sublist.subset hc) hw, h.2.suffix hs⟩

/-- Collapsedness is symmetric under reversal. -/
theorem collapsed_reverse {l : List Char} (h : Collapsed l) : Collapsed l.reverse := by
  refine ⟨fun c hc hw => h.1 c (List.mem_reverse.1 hc) hw, ?_⟩
  rw [List.chain'_reverse]
  exact h.2.imp (fun a b hab hba => hab ⟨hba.2, hba.1⟩)

/-- Collapsedness survives stripping. -/
theorem collapsed_stripWs {l : List Char} (h : Collapsed l) : Collapsed (stripWs l) := by
  unfold stripWs
  exact collapsed_reverse
    (collapsed_suffix (collapsed_reverse (collapsed_suffix h (List.dropWhile_suffix _)))
      (List.dropWhile_suffix _))

/-- The head surviving `dropWhile` fails the predicate. -/
theorem head?_dropWhile (p : Char → Bool) (l : List Char) :
    ∀ a, (l.dropWhile p).head? = some a → p a = false := by
  induction l with
  | nil => intro a ha; cases ha
  | cons c rest ih =>
    intro a ha
    by_cases hc : p c = true
    · rw [List.dropWhile_cons_of_pos hc] at ha
      exact ih a ha
    · have hc' : p c = false := by revert hc; cases p c <;> simp
      rw [List.dropWhile_cons_of_neg (by rw [hc']; exact Bool.false_ne_true)] at ha
      rw [List.head?_cons, Option.some_inj] at ha
      rw [← ha]
      exact hc'

/-- A list whose head fails the predicate is unchanged by `dropWhile`. -/
theorem dropWhile_eq_self_of_head (p : Char → Bool) (l : List Char)
    (h : ∀ a, l.head? = some a → p a = false) : l.dropWhile p = l := by
  cases l with
  | nil => rfl
  | cons c rest =>
    have := h c rfl
    rw [List.dropWhile_cons_of_neg (by rw [this]; exact Bool.false_ne_true)]

/-- A non-empty suffix keeps the last element. -/
theorem getLast?_of_suffix {l s : List Char} (hs : s <:+ l) (hne : s ≠ []) :
    s.getLast? = l.getLast? := by
  obtain ⟨u, rfl⟩ := hs
  rw [List.getLast?_append]
  rcases hG : s.getLast? with _ | x
  · rw [List.getLast?_eq_none_iff] at hG
    exact absurd hG hne
  · rfl

/-- Python's `strip` is idempotent. -/
theorem stripWs_idem (l : List Char) : stripWs (stripWs l) = stripWs l := by
  by_cases hCnil : (l.dropWhile isWsChar).reverse.dropWhile isWsChar = []
  · have hnil : stripWs l = [] := by
      unfold stripWs
      rw [hCnil]
      rfl
    rw [hnil]
    rfl
  · have hChead : ∀ a,
        ((l.dropWhile isWsChar).reverse.dropWhile isWsChar).head? = some a →
          isWsChar a = false :=
      fun a ha => head?_dropWhile isWsChar _ a ha
    have hAhead : ∀ a, (l.dropWhile isWsChar).head? = some a → isWsChar a = false :=
      fun a ha => head?_dropWhile isWsChar l a ha
    have hClast : ((l.dropWhile isWsChar).reverse.dropWhile isWsChar).getLast? =
        (l.dropWhile isWsChar).head? := by
      rw [getLast?_of_suffix (List.dropWhile_suffix isWsChar) hCnil, List.getLast?_reverse]
    have hBhead : ∀ a,
        (((l.dropWhile isWsChar).reverse.dropWhile isWsChar).reverse).head? = some a →
          isWsChar a = false := by
      intro a ha
      rw [List.head?_reverse, hClast] at ha
      exact hAhead a ha
    show stripWs (((l.dropWhile isWsChar).reverse.dropWhile isWsChar).reverse) = _
    unfold stripWs
    rw [dropWhile_eq_self_of_head isWsChar _ hBhead, List.reverse_reverse,
      dropWhile_eq_self_of_head isWsChar _ hChead]

/-- A list without newlines is a single line. -/
theorem splitLines_no_newline (l : List Char) (h : '\n' ∉ l) : splitLines l = [l] := by
  induction l with
  | nil => rfl
  | cons c rest ih =>
    have hc : ¬(c = '\n') := fun hc => h (hc ▸ List.mem_cons_self _ _)
    have hrest := ih (fun hr => h (List.mem_cons_of_mem _ hr))
    simp only [splitLines, if_neg hc, hrest]

/-- Stripping keeps only characters of the input. -/
theorem stripWs_mem {c : Char} {l : List Char} (h : c ∈ stripWs l) : c ∈ l := by
  unfold stripWs at h
  rw [List.mem_reverse] at h
  have h1 := (List.dropWhile_suffix isWsChar).sublist.subset h
  rw [List.mem_reverse] at h1
  exact (List.dropWhile_suffix isWsChar).sublist.subset h1

/-- A single-line string that is already stripped is a fixed point of
`_clean_text`. -/
theorem clean_text_eq_self (s : String) (hnl : '\n' ∉ s.data)
    (hstrip : stripWs s.data = s.data) : clean_text s = s := by
  unfold clean_text
  by_cases h0 : s = ""
  · rw [if_pos h0, h0]
  · rw [if_neg h0]
    have hd : s.data ≠ [] := fun hc => h0 (String.ext_iff.2 hc)
    rw [splitLines_no_newline s.data hnl]
    simp only [List.map_cons, List.map_nil, hstrip]
    have hne : (s.data.isEmpty = false) := by
      cases hD : s.data with
      | nil => exact absurd hD hd
      | cons a l => rfl
    simp only [List.filter, hne, Bool.not_false, List.filter_nil]
    show (⟨List.intercalate ['\n'] [s.data]⟩ : String) = s
    rw [show List.intercalate ['\n'] [s.data] = s.data by simp [List.intercalate]]

/-- On plain text (no Japanese characters or punctuation) normalization is
exactly whitespace collapsing plus stripping. -/
theorem normalize_text_plain (s : String)
    (h : ∀ c ∈ s.data, isJchar c = false ∧ isCloser c = false ∧ isOpener c = false) :
    normalize_text s = ⟨stripWs (subWs s.data)⟩ := by
  by_cases h0 : s = ""
  · subst h0
    rfl
  · unfold normalize_text
    rw [fix_japanese_spacing_plain s h0 h]
    have hdata : (⟨stripWs (subWs s.data)⟩ : String).data = stripWs (subWs s.data) := rfl
    have hnl : '\n' ∉ (⟨stripWs (subWs s.data)⟩ : String).data := by
      rw [hdata]
      intro hmem
      rcases subWs_mem s.data false '\n' (stripWs_mem hmem) with hsp | hws
      · cases hsp
      · rw [show isWsChar '\n' = true by decide] at hws
        exact absurd hws.2 (by decide)
    have hst : stripWs (⟨stripWs (subWs s.data)⟩ : String).data =
        (⟨stripWs (subWs s.data)⟩ : String).data := by
      rw [hdata]
      exact stripWs_idem (subWs s.data)
    exact clean_text_eq_self _ hnl hst

/-- C2 counterexample: normalization is not idempotent.  On `あ い う` the
first pass rewrites the leftmost pair to `ああ` (the backreference slip
doubles the first character) and resumes scanning after the match, leaving
`ああ う`; the second pass then matches again and yields `あああ`. -/
theorem normalize_not_idempotent_cex :
    normalize_text (normalize_text "あ い う") ≠ normalize_text "あ い う" := by
  decide

/-- C2 (amended): normalization is pure and deterministic, and it is
idempotent on every string free of the fixup's special characters (the
Japanese blocks and the Japanese punctuation classes), including the empty
string and pure-whitespace strings; on strings containing Japanese characters
idempotence fails (see the counterexample). -/
theorem normalize_text_idempotent_plain (s : String)
    (h : ∀ c ∈ s.data, isJchar c = false ∧ isCloser c = false ∧ isOpener c = false) :
    normalize_text (normalize_text s) = normalize_text s := by
  rw [normalize_text_plain s h]
  have hdata : (⟨stripWs (subWs s.data)⟩ : String).data = stripWs (subWs s.data) := rfl
  have hplain : ∀ c ∈ (⟨stripWs (subWs s.data)⟩ : String).data,
      isJchar c = false ∧ isCloser c = false ∧ isOpener c = false := by
    intro c hc
    rw [hdata] at hc
    rcases subWs_mem s.data false c (stripWs_mem hc) with hsp | hmem
    · subst hsp
      exact ⟨by decide, by decide, by decide⟩
    · exact h c hmem.1
  rw [normalize_text_plain _ hplain, hdata]
  have hcoll : Collapsed (stripWs (subWs s.data)) :=
    collapsed_stripWs (collapsed_subWs s.data)
  have hsub : subWs (stripWs (subWs s.data)) = stripWs (subWs s.data) :=
    (subWsAux_eq_self _ hcoll).1
  rw [hsub, stripWs_idem]

/-- Witness for `normalize_text_idempotent_plain` on a plain mixed-whitespace
string. -/
theorem normalize_text_idempotent_plain_witness :
    normalize_text (normalize_text "  a \n b  ") = normalize_text "  a \n b  " :=
  normalize_text_idempotent_plain "  a \n b  " (by decide)

/-- C9 counterexample: on `あ い  a  b` the fixup yields `ああ a b`, not the
`あい  a  b` the claim predicts — the matched pair of Japanese characters is
replaced by the first character doubled (the second is dropped), and the
whitespace run between the non-logographic `a` and `b` is collapsed and the
string trimmed instead of being left unaltered. -/
theorem fix_japanese_spacing_cex :
    fix_japanese_spacing "あ い  a  b" = "ああ a b" ∧
    ("ああ a b" : String) ≠ "あい  a  b" := by
  constructor <;> decide

/-- C9 (amended): the fixup removes the whitespace run between two adjacent
Japanese characters but — because the replacement `\1\2` names the two groups
wrapping the first character — emits the first character twice and drops the
second; it removes whitespace before closing and after opening Japanese
punctuation; and on text consisting only of non-logographic characters it is
whitespace collapsing followed by stripping, so the spacing of non-logographic
segments is normalized rather than left unaltered. -/
theorem fix_japanese_spacing_behavior (c d e o : Char) (ws₁ ws₂ ws₃ : List Char)
    (s : String)
    (hc : isJchar c = true) (hd : isJchar d = true) (hdw : isWsChar d = false)
    (hne₁ : ws₁ ≠ []) (hws₁ : ∀ w ∈ ws₁, isWsChar w = true)
    (he : isCloser e = true) (hne₂ : ws₂ ≠ []) (hws₂ : ∀ w ∈ ws₂, isWsChar w = true)
    (ho : isOpener o = true) (hws₃ : ∀ w ∈ ws₃, isWsChar w = true)
    (hs : s ≠ "")
    (hplain : ∀ a ∈ s.data, isJchar a = false ∧ isCloser a = false ∧ isOpener a = false) :
    subJJ (c :: ws₁ ++ [d]) = [c, c] ∧
    subClose (ws₂ ++ [e]) = [e] ∧
    subOpen (o :: ws₃) = [o] ∧
    fix_japanese_spacing s = ⟨stripWs (subWs s.data)⟩ :=
  ⟨subJJ_doubles c d ws₁ hc hd hdw hne₁ hws₁,
    subClose_removes e ws₂ he hne₂ hws₂,
    subOpen_removes o ws₃ ho hws₃,
    fix_japanese_spacing_plain s hs hplain⟩

/-- Witness for `fix_japanese_spacing_behavior` on `あ い`, `　。`, `「 ` and
the plain string `a  b`. -/
theorem fix_japanese_spacing_behavior_witness :
    subJJ ('あ' :: [' '] ++ ['い']) = ['あ', 'あ'] ∧
    subClose ([' '] ++ ['。']) = ['。'] ∧
    subOpen ('「' :: [' ']) = ['「'] ∧
    fix_japanese_spacing "a  b" = ⟨stripWs (subWs ("a  b" : String).data)⟩ :=
  fix_japanese_spacing_behavior 'あ' 'い' '。' '「' [' '] [' '] [' '] "a  b"
    (by decide) (by decide) (by decide) (by decide) (by decide) (by decide)
    (by decide) (by decide) (by decide) (by decide) (by decide) (by decide)
